import Mathlib

/-!
Verification of the mdbook-split preprocessor (`src/lib.rs`).

The program splits a markdown chapter into one chapter per top-level
(level-1) heading.  We embed the code shallowly:

* `Event`/`Tag` mirror the `pulldown_cmark` event type as far as the
  program inspects it (only `Start (Heading ..)` and `Text` matter; the
  remaining variants are carried as opaque payloads).
* The markdown parser (`pulldown_cmark::Parser`) and the serializer
  (`pulldown_cmark_to_cmark::cmark`) are external crates; they enter the
  embedding as parameters `parse : String → List Event` and
  `ser : List Event → Except String String`.
* The SHA-256 hash from the `sha2` crate is implemented concretely below
  (padding, schedule, compression, lowercase-hex encoding) so that the
  identifier derivation in `to_chapter` is fully executable; it is checked
  against the digests recorded in the repository's own test.
-/

set_option autoImplicit false

/-- Heading levels `H1`–`H6` of `pulldown_cmark::HeadingLevel`. -/
inductive HeadingLevel where
  | H1 | H2 | H3 | H4 | H5 | H6
  deriving DecidableEq, Repr

/-- The tag kinds the program can encounter inside `Start`/`End` events.
`Heading` carries the level plus optional fragment id and classes, as in
`Tag::Heading(level, id, classes)`.  All other tag kinds are irrelevant to
the program (it only pattern-matches on `Heading`), so they are collapsed
into representative variants. -/
inductive Tag where
  | Heading (level : HeadingLevel) (id : Option String) (classes : List String)
  | Paragraph
  | Emphasis
  | Strong
  | BlockQuote
  | CodeBlock (info : String)
  | ListItem
  | Link (dest : String) (title : String)
  | Image (dest : String) (title : String)
  | Table
  | FootnoteDefinition (label : String)
  deriving DecidableEq, Repr

/-- The type `pulldown_cmark::Event`: the structural events of a markdown document. -/
inductive Event where
  | Start (tag : Tag)
  | End (tag : Tag)
  | Text (s : String)
  | Code (s : String)
  | Html (s : String)
  | FootnoteReference (s : String)
  | SoftBreak
  | HardBreak
  | Rule
  | TaskListMarker (checked : Bool)
  deriving DecidableEq, Repr

/-- The function `fn is_h1(event: &Event) -> bool`:
`matches!(event, Event::Start(Tag::Heading(HeadingLevel::H1, _, _)))`. -/
def is_h1 : Event → Bool
  | Event.Start (Tag.Heading HeadingLevel.H1 _ _) => true
  | _ => false

/-- The loop body of `split_chapter` (lines 57–70), run-structure only:
scan events, accumulate the current run `evs`; an `is_h1` event with a
non-empty current run closes the run and opens a new one seeded with that
event; at end of input a non-empty run is flushed. -/
def splitRunsAux : List Event → List Event → List (List Event)
  | [], evs => if evs.isEmpty then [] else [evs]
  | e :: rest, evs =>
    if is_h1 e && !evs.isEmpty then
      evs :: splitRunsAux rest [e]
    else
      splitRunsAux rest (evs ++ [e])

/-- The partition of an event sequence into runs, as computed by the
`for event in parser` loop of `split_chapter` starting from an empty run. -/
def splitRuns (es : List Event) : List (List Event) :=
  splitRunsAux es []

/-- The scan `events.windows(2).find_map(|w| is_h1(&w[0]).then_some(&w[1]))`:
the event immediately following the first `is_h1` event that has a
successor, scanning adjacent pairs left to right. -/
def findH1Next : List Event → Option Event
  | e1 :: e2 :: rest =>
    if is_h1 e1 then some e2 else findH1Next (e2 :: rest)
  | _ => none

/-- The `name` computation of `to_chapter` (lines 24–31): the text of the
event following the first top-level heading start, when that event is a
plain `Text` event; otherwise the default empty string. -/
def extract_name (events : List Event) : String :=
  match findH1Next events with
  | some (Event.Text t) => t
  | _ => ""

/-! ### SHA-256 (the `sha2` crate's `Sha256`, modelled concretely)

`to_chapter` feeds the UTF-8 bytes of the name into `Sha256` and formats
the 256-bit digest as lowercase hex (`format!("{result:x}")`).  We
implement the FIPS 180-4 algorithm over `Nat` with explicit `% 2^32`
reductions. -/

/-- UTF-8 encoding of one character as byte values (0–255). -/
def utf8Char (c : Char) : List Nat :=
  let n := c.toNat
  if n < 128 then [n]
  else if n < 2048 then [192 + n / 64, 128 + n % 64]
  else if n < 65536 then [224 + n / 4096, 128 + n / 64 % 64, 128 + n % 64]
  else [240 + n / 262144, 128 + n / 4096 % 64, 128 + n / 64 % 64, 128 + n % 64]

/-- UTF-8 byte sequence of a string (the bytes `hasher.update(name)` sees). -/
def strBytes (s : String) : List Nat :=
  s.data.foldr (fun c acc => utf8Char c ++ acc) []

/-- Right rotation of a 32-bit word, arithmetically. -/
def rotr (k x : Nat) : Nat := x / 2 ^ k + x % 2 ^ k * 2 ^ (32 - k)

/-- Message-schedule function σ₀ of SHA-256. -/
def ssig0 (x : Nat) : Nat := rotr 7 x ^^^ rotr 18 x ^^^ x / 8

/-- Message-schedule function σ₁ of SHA-256. -/
def ssig1 (x : Nat) : Nat := rotr 17 x ^^^ rotr 19 x ^^^ x / 1024

/-- Compression function Σ₀ of SHA-256. -/
def bsig0 (x : Nat) : Nat := rotr 2 x ^^^ rotr 13 x ^^^ rotr 22 x

/-- Compression function Σ₁ of SHA-256. -/
def bsig1 (x : Nat) : Nat := rotr 6 x ^^^ rotr 11 x ^^^ rotr 25 x

/-- The choice function Ch(e,f,g) = (e ∧ f) ⊕ (¬e ∧ g) on 32-bit words. -/
def chFun (e f g : Nat) : Nat := (e &&& f) ^^^ ((e ^^^ 4294967295) &&& g)

/-- The majority function Maj(a,b,c) = (a ∧ b) ⊕ (a ∧ c) ⊕ (b ∧ c). -/
def majFun (a b c : Nat) : Nat := (a &&& b) ^^^ (a &&& c) ^^^ (b &&& c)

/-- The eight 32-bit working variables of the SHA-256 state. -/
structure Hs where
  a : Nat
  b : Nat
  c : Nat
  d : Nat
  e : Nat
  f : Nat
  g : Nat
  h : Nat
  deriving DecidableEq, Repr

/-- Initial hash value H⁽⁰⁾ of SHA-256. -/
def initHs : Hs :=
  ⟨1779033703, 3144134277, 1013904242,
   2773480762, 1359893119, 2600822924,
   528734635, 1541459225⟩

/-- The 64 round constants K of SHA-256. -/
def kConst : List Nat :=
  [1116352408, 1899447441, 3049323471, 3921009573, 961987163,
   1508970993, 2453635748, 2870763221, 3624381080, 310598401,
   607225278, 1426881987, 1925078388, 2162078206, 2614888103,
   3248222580, 3835390401, 4022224774, 264347078, 604807628,
   770255983, 1249150122, 1555081692, 1996064986, 2554220882,
   2821834349, 2952996808, 3210313671, 3336571891, 3584528711,
   113926993, 338241895, 666307205, 773529912, 1294757372,
   1396182291, 1695183700, 1986661051, 2177026350, 2456956037,
   2730485921, 2820302411, 3259730800, 3345764771, 3516065817,
   3600352804, 4094571909, 275423344, 430227734, 506948616,
   659060556, 883997877, 958139571, 1322822218, 1537002063,
   1747873779, 1955562222, 2024104815, 2227730452, 2361852424,
   2428436474, 2756734187, 3204031479, 3329325298]

/-- One round of the SHA-256 compression loop. -/
def shaStep (st : Hs) (kw : Nat × Nat) : Hs :=
  let t1 := (st.h + bsig1 st.e + chFun st.e st.f st.g + kw.1 + kw.2) % 4294967296
  let t2 := (bsig0 st.a + majFun st.a st.b st.c) % 4294967296
  ⟨(t1 + t2) % 4294967296, st.a, st.b, st.c,
   (st.d + t1) % 4294967296, st.e, st.f, st.g⟩

/-- Big-endian grouping of bytes into 32-bit words. -/
def toWords : List Nat → List Nat
  | b0 :: b1 :: b2 :: b3 :: rest =>
    (((b0 * 256 + b1) * 256 + b2) * 256 + b3) :: toWords rest
  | _ => []

/-- Extend the 16-word block to the 64-word message schedule. -/
def extendW : List Nat → Nat → List Nat
  | w, 0 => w
  | w, n + 1 =>
    let m := w.length
    let x := (ssig1 (w.getD (m - 2) 0) + w.getD (m - 7) 0 +
              ssig0 (w.getD (m - 15) 0) + w.getD (m - 16) 0) % 4294967296
    extendW (w ++ [x]) n

/-- Process one 512-bit block. -/
def compressBlock (cur : Hs) (block : List Nat) : Hs :=
  let w := extendW (toWords block) 48
  let st := (kConst.zip w).foldl shaStep cur
  ⟨(cur.a + st.a) % 4294967296, (cur.b + st.b) % 4294967296,
   (cur.c + st.c) % 4294967296, (cur.d + st.d) % 4294967296,
   (cur.e + st.e) % 4294967296, (cur.f + st.f) % 4294967296,
   (cur.g + st.g) % 4294967296, (cur.h + st.h) % 4294967296⟩

/-- Big-endian 64-bit encoding of the message bit length. -/
def lenBytes (n : Nat) : List Nat :=
  [n / 2 ^ 56 % 256, n / 2 ^ 48 % 256, n / 2 ^ 40 % 256, n / 2 ^ 32 % 256,
   n / 2 ^ 24 % 256, n / 2 ^ 16 % 256, n / 2 ^ 8 % 256, n % 256]

/-- SHA-256 padding: append `0x80`, zero bytes to 56 mod 64, then the
bit length as 8 big-endian bytes. -/
def shaPad (msg : List Nat) : List Nat :=
  msg ++ 128 :: (List.replicate ((64 - (msg.length + 9) % 64) % 64) 0
    ++ lenBytes (8 * msg.length))

/-- Split a list into 64-byte blocks; structural recursion on a fuel
argument, each step consuming at least one element, so any fuel at least
the list's length gives the exact block decomposition. -/
def chunksFuel : Nat → List Nat → List (List Nat)
  | _, [] => []
  | 0, _ :: _ => []
  | fuel + 1, b :: rest => (b :: rest).take 64 :: chunksFuel fuel ((b :: rest).drop 64)

/-- Split the padded message into 64-byte blocks. -/
def chunks (l : List Nat) : List (List Nat) :=
  chunksFuel l.length l

/-- The digest as eight 32-bit words. -/
def sha256words (msg : List Nat) : Hs :=
  (chunks (shaPad msg)).foldl compressBlock initHs

/-- The eight state words, most significant first. -/
def Hs.toList (s : Hs) : List Nat := [s.a, s.b, s.c, s.d, s.e, s.f, s.g, s.h]

/-- Lowercase hexadecimal digit for a value 0–15. -/
def nibbleChar (n : Nat) : Char := "0123456789abcdef".data.getD n '0'

/-- Eight lowercase hex digits of a 32-bit word, most significant first. -/
def wordHex (w : Nat) : List Char :=
  [nibbleChar (w / 2 ^ 28 % 16), nibbleChar (w / 2 ^ 24 % 16),
   nibbleChar (w / 2 ^ 20 % 16), nibbleChar (w / 2 ^ 16 % 16),
   nibbleChar (w / 2 ^ 12 % 16), nibbleChar (w / 2 ^ 8 % 16),
   nibbleChar (w / 2 ^ 4 % 16), nibbleChar (w % 16)]

/-- Concatenated hex digits of a word list. -/
def hexOfWords : List Nat → List Char
  | [] => []
  | w :: ws => wordHex w ++ hexOfWords ws

/-- The lowercase-hex `format!` rendering of the SHA-256 digest of a string's UTF-8
bytes: 64 lowercase hex characters. -/
def sha256hex (s : String) : String :=
  String.mk (hexOfWords (sha256words (strBytes s)).toList)


/-! ### The mdbook data model and the preprocessor

`mdbook::book::{Book, BookItem, Chapter}`: a book is a list of items; an
item is a chapter, a separator or a part title; a chapter carries name,
content, section number, sub-items, path, source path and parent names.
`Chapter` and `BookItem` are mutually recursive through `sub_items`. -/

mutual

/-- The type `mdbook::book::BookItem`. -/
inductive BookItem where
  | Chapter (c : Chapter)
  | Separator
  | PartTitle (title : String)

/-- The type `mdbook::book::Chapter` with its seven fields, in declaration order.
`number: Option<SectionNumber>` is a list of numbers, `path` and
`source_path` are optional paths (modelled as strings). -/
inductive Chapter where
  | mk (name : String) (content : String) (number : Option (List Nat))
       (sub_items : List BookItem) (path : Option String)
       (source_path : Option String) (parent_names : List String)

end

/-- Field accessor: `chapter.name`. -/
def Chapter.name : Chapter → String
  | .mk n _ _ _ _ _ _ => n

/-- Field accessor: `chapter.content`. -/
def Chapter.content : Chapter → String
  | .mk _ c _ _ _ _ _ => c

/-- Field accessor: `chapter.number`. -/
def Chapter.number : Chapter → Option (List Nat)
  | .mk _ _ n _ _ _ _ => n

/-- Field accessor: `chapter.sub_items`. -/
def Chapter.sub_items : Chapter → List BookItem
  | .mk _ _ _ s _ _ _ => s

/-- Field accessor: `chapter.path`. -/
def Chapter.path : Chapter → Option String
  | .mk _ _ _ _ p _ _ => p

/-- Field accessor: `chapter.source_path`. -/
def Chapter.source_path : Chapter → Option String
  | .mk _ _ _ _ _ sp _ => sp

/-- Field accessor: `chapter.parent_names`. -/
def Chapter.parent_names : Chapter → List String
  | .mk _ _ _ _ _ _ pn => pn

/-- The value `Chapter::default()`: every field at its default/empty value. -/
def Chapter.defaultChapter : Chapter :=
  Chapter.mk "" "" none [] none none []

/-- The type `mdbook::book::Book`: the ordered top-level sections. -/
structure Book where
  sections : List BookItem

/-- The function `fn to_chapter(events: Vec<Event>) -> Result<Chapter, Error>`
(lines 23–45), with the external `pulldown_cmark_to_cmark::cmark`
serializer abstracted as `ser`: extract the name from the first
h1-start/text adjacent pair, serialize the events to markdown, hash the
name with SHA-256, and build a chapter with every other field defaulted
(`..Default::default()`). -/
def to_chapter (ser : List Event → Except String String)
    (events : List Event) : Except String Chapter :=
  let name := extract_name events
  match ser events with
  | Except.error err => Except.error err
  | Except.ok content =>
    Except.ok (Chapter.mk name content none [] (some (sha256hex name)) none [])

/-- The `for event in parser` loop of `split_chapter` (lines 54–72) with
explicit state: the remaining events and the current open run.  A
top-level heading start with a non-empty current run finishes that run
(converting it to a chapter via `to_chapter`, propagating its error with
`?`) and seeds a new run; the final non-empty run is flushed after the
loop. -/
def splitChapterAux (ser : List Event → Except String String) :
    List Event → List Event → Except String (List Chapter)
  | [], evs =>
    if evs.isEmpty then Except.ok []
    else
      match to_chapter ser evs with
      | Except.error err => Except.error err
      | Except.ok c => Except.ok [c]
  | e :: rest, evs =>
    if is_h1 e && !evs.isEmpty then
      match to_chapter ser evs with
      | Except.error err => Except.error err
      | Except.ok c =>
        match splitChapterAux ser rest [e] with
        | Except.error err => Except.error err
        | Except.ok cs => Except.ok (c :: cs)
    else
      splitChapterAux ser rest (evs ++ [e])

/-- The function `fn split_chapter(chapter: &Chapter) -> Result<Vec<Chapter>, Error>`
(lines 47–73): parse the chapter's content (the external
`pulldown_cmark::Parser` is abstracted as `parse`) and run the splitting
loop starting from an empty run. -/
def split_chapter (parse : String → List Event)
    (ser : List Event → Except String String)
    (chapter : Chapter) : Except String (List Chapter) :=
  splitChapterAux ser (parse chapter.content) []

/-- The body of `Split::run` (lines 80–100): fold over `book.sections`,
splicing the chapters produced from each `Chapter` item in place
(each pushed as a `BookItem::Chapter`), and pushing `Separator` and
`PartTitle` items through unchanged; a `split_chapter` error aborts via
`?`. -/
def processItems (parse : String → List Event)
    (ser : List Event → Except String String) :
    List BookItem → Except String (List BookItem)
  | [] => Except.ok []
  | BookItem.Chapter c :: rest =>
    match split_chapter parse ser c with
    | Except.error err => Except.error err
    | Except.ok cs =>
      match processItems parse ser rest with
      | Except.error err => Except.error err
      | Except.ok tail => Except.ok (cs.map BookItem.Chapter ++ tail)
  | BookItem.Separator :: rest =>
    match processItems parse ser rest with
    | Except.error err => Except.error err
    | Except.ok tail => Except.ok (BookItem.Separator :: tail)
  | BookItem.PartTitle t :: rest =>
    match processItems parse ser rest with
    | Except.error err => Except.error err
    | Except.ok tail => Except.ok (BookItem.PartTitle t :: tail)

/-- The method `Split::run` (lines 80–100): rebuild the book from the rewritten
sections; `Book::new()` starts from an empty section list and
`push_item` appends, so the result is exactly the rewritten list. -/
def Split.run (parse : String → List Event)
    (ser : List Event → Except String String)
    (book : Book) : Except String Book :=
  match processItems parse ser book.sections with
  | Except.error err => Except.error err
  | Except.ok secs => Except.ok (Book.mk secs)

/-- Specification-side description of the tree rewrite, per item: a
`Chapter` node expands to the chapters `split_chapter` produces (in
source-run order, each wrapped back into a `BookItem`), while `Separator`
and `PartTitle` nodes are copied through unchanged as singleton
expansions. -/
def expandItemSpec (parse : String → List Event)
    (ser : List Event → Except String String) :
    BookItem → Except String (List BookItem)
  | BookItem.Chapter c =>
    match split_chapter parse ser c with
    | Except.error err => Except.error err
    | Except.ok cs => Except.ok (cs.map BookItem.Chapter)
  | BookItem.Separator => Except.ok [BookItem.Separator]
  | BookItem.PartTitle t => Except.ok [BookItem.PartTitle t]

/-- Sequential conversion of runs to chapters with short-circuiting
error, the shape the splitting loop produces. -/
def runsToChapters (ser : List Event → Except String String) :
    List (List Event) → Except String (List Chapter)
  | [] => Except.ok []
  | r :: rs =>
    match to_chapter ser r with
    | Except.error err => Except.error err
    | Except.ok c =>
      match runsToChapters ser rs with
      | Except.error err => Except.error err
      | Except.ok cs => Except.ok (c :: cs)

/-- Specification-side whole-tree rewrite: expand each item with
`expandItemSpec` and concatenate, short-circuiting on error. -/
def expandAll (parse : String → List Event)
    (ser : List Event → Except String String) :
    List BookItem → Except String (List BookItem)
  | [] => Except.ok []
  | it :: rest =>
    match expandItemSpec parse ser it with
    | Except.error err => Except.error err
    | Except.ok xs =>
      match expandAll parse ser rest with
      | Except.error err => Except.error err
      | Except.ok tail => Except.ok (xs ++ tail)

/-! ### Lemmas about the run partition -/

theorem splitRunsAux_length (input : List Event) :
    ∀ evs : List Event, evs ≠ [] →
      (splitRunsAux input evs).length = 1 + input.countP is_h1 := by
  induction input with
  | nil =>
    intro evs hne
    obtain ⟨a, t, rfl⟩ := List.exists_cons_of_ne_nil hne
    simp [splitRunsAux]
  | cons e rest ih =>
    intro evs hne
    obtain ⟨a, t, rfl⟩ := List.exists_cons_of_ne_nil hne
    by_cases he : is_h1 e
    · simp [splitRunsAux, he, ih [e] (by simp), List.countP_cons]
      omega
    · simp [splitRunsAux, he, ih (a :: (t ++ [e])) (by simp), List.countP_cons]

theorem splitRunsAux_noH1 (input : List Event) :
    ∀ evs : List Event, evs ≠ [] → input.countP is_h1 = 0 →
      splitRunsAux input evs = [evs ++ input] := by
  induction input with
  | nil =>
    intro evs hne _
    obtain ⟨a, t, rfl⟩ := List.exists_cons_of_ne_nil hne
    simp [splitRunsAux]
  | cons e rest ih =>
    intro evs hne hcnt
    obtain ⟨a, t, rfl⟩ := List.exists_cons_of_ne_nil hne
    have he : is_h1 e = false := by
      by_contra hcon
      simp [List.countP_cons, eq_true_of_ne_false hcon] at hcnt
    have hrest : rest.countP is_h1 = 0 := by
      simp [List.countP_cons, he] at hcnt
      exact List.countP_eq_zero.mpr fun a ha => by simp [hcnt a ha]
    simp [splitRunsAux, he, ih (a :: (t ++ [e])) (by simp) hrest]

theorem splitRunsAux_head (input : List Event) :
    ∀ evs : List Event, evs ≠ [] →
      (splitRunsAux input evs).head? =
        some (evs ++ input.takeWhile (fun e => !is_h1 e)) := by
  induction input with
  | nil =>
    intro evs hne
    obtain ⟨a, t, rfl⟩ := List.exists_cons_of_ne_nil hne
    simp [splitRunsAux]
  | cons e rest ih =>
    intro evs hne
    obtain ⟨a, t, rfl⟩ := List.exists_cons_of_ne_nil hne
    by_cases he : is_h1 e
    · simp [splitRunsAux, he, List.takeWhile_cons]
    · simp [splitRunsAux, he, ih (a :: (t ++ [e])) (by simp), List.takeWhile_cons]

theorem splitRunsAux_tail_noH1 (input : List Event) :
    ∀ evs : List Event, (∀ e ∈ evs.drop 1, is_h1 e = false) →
      ∀ run ∈ splitRunsAux input evs, ∀ e ∈ run.drop 1, is_h1 e = false := by
  induction input with
  | nil =>
    intro evs hevs run hrun
    cases evs with
    | nil => simp [splitRunsAux] at hrun
    | cons a t =>
      simp [splitRunsAux] at hrun
      subst hrun
      exact hevs
  | cons e rest ih =>
    intro evs hevs run hrun
    cases evs with
    | nil =>
      have : (is_h1 e && !(List.isEmpty ([] : List Event))) = false := by simp
      rw [splitRunsAux] at hrun
      simp at hrun
      exact ih [e] (by simp) run hrun
    | cons a t =>
      by_cases he : is_h1 e
      · rw [splitRunsAux] at hrun
        simp [he] at hrun
        rcases hrun with hrun | hrun
        · subst hrun
          exact hevs
        · exact ih [e] (by simp) run hrun
      · rw [splitRunsAux] at hrun
        simp [he] at hrun
        refine ih (a :: (t ++ [e])) ?_ run hrun
        intro x hx
        simp at hx
        rcases hx with hx | hx
        · exact hevs x (by simpa using hx)
        · subst hx
          exact eq_false_of_ne_true he

/-- Every run the splitter emits is non-empty. -/
theorem splitRunsAux_ne_nil (input : List Event) :
    ∀ evs run, run ∈ splitRunsAux input evs → run ≠ [] := by
  induction input with
  | nil =>
    intro evs run hrun
    cases evs with
    | nil => simp [splitRunsAux] at hrun
    | cons a t =>
      simp [splitRunsAux] at hrun
      subst hrun
      simp
  | cons e rest ih =>
    intro evs run hrun
    cases evs with
    | nil =>
      rw [splitRunsAux] at hrun
      simp at hrun
      exact ih [e] run hrun
    | cons a t =>
      by_cases he : is_h1 e
      · rw [splitRunsAux] at hrun
        simp [he] at hrun
        rcases hrun with hrun | hrun
        · subst hrun; simp
        · exact ih [e] run hrun
      · rw [splitRunsAux] at hrun
        simp [he] at hrun
        exact ih (a :: (t ++ [e])) run hrun

/-! ### Lemmas about title extraction -/

theorem findH1Next_cons_of_not_h1 (p : Event) (l : List Event)
    (hl : l ≠ []) (hp : is_h1 p = false) :
    findH1Next (p :: l) = findH1Next l := by
  obtain ⟨a, t, rfl⟩ := List.exists_cons_of_ne_nil hl
  simp [findH1Next, hp]

theorem findH1Next_none (l : List Event)
    (hl : ∀ e ∈ l, is_h1 e = false) : findH1Next l = none := by
  induction l with
  | nil => simp [findH1Next]
  | cons a t ih =>
    cases t with
    | nil => simp [findH1Next]
    | cons b u =>
      rw [findH1Next_cons_of_not_h1 a (b :: u) (by simp) (hl a (by simp))]
      exact ih fun e he => hl e (by simp [he])

theorem extract_name_noH1 (l : List Event)
    (hl : ∀ e ∈ l, is_h1 e = false) : extract_name l = "" := by
  simp [extract_name, findH1Next_none l hl]

theorem findH1Next_first (pre : List Event) (e nxt : Event) (rest : List Event)
    (hpre : ∀ x ∈ pre, is_h1 x = false) (he : is_h1 e = true) :
    findH1Next (pre ++ e :: nxt :: rest) = some nxt := by
  induction pre with
  | nil => simp [findH1Next, he]
  | cons p ps ih =>
    rw [List.cons_append,
      findH1Next_cons_of_not_h1 p (ps ++ e :: nxt :: rest) (by simp)
        (hpre p (by simp))]
    exact ih fun x hx => hpre x (by simp [hx])

theorem findH1Next_last (pre : List Event) (e : Event)
    (hpre : ∀ x ∈ pre, is_h1 x = false) :
    findH1Next (pre ++ [e]) = none := by
  induction pre with
  | nil => simp [findH1Next]
  | cons p ps ih =>
    rw [List.cons_append,
      findH1Next_cons_of_not_h1 p (ps ++ [e]) (by simp) (hpre p (by simp))]
    exact ih fun x hx => hpre x (by simp [hx])

/-! ### Lemmas about chapter building and the tree walk -/

/-- Inversion for a successful `to_chapter`: the chapter is built from the
extracted name, the serialized content, the hash path, and defaults. -/
theorem to_chapter_ok (ser : List Event → Except String String)
    (events : List Event) (c : Chapter)
    (h : to_chapter ser events = Except.ok c) :
    c.name = extract_name events ∧
    c.path = some (sha256hex (extract_name events)) ∧
    c.number = none ∧ c.sub_items = [] ∧ c.source_path = none ∧
    c.parent_names = [] ∧ ser events = Except.ok c.content := by
  unfold to_chapter at h
  cases hs : ser events with
  | error err => rw [hs] at h; cases h
  | ok content =>
    rw [hs] at h
    cases h
    simp [Chapter.name, Chapter.path, Chapter.number, Chapter.sub_items,
      Chapter.source_path, Chapter.parent_names, Chapter.content]

/-- A failing serializer makes `to_chapter` fail with the same error. -/
theorem to_chapter_error (ser : List Event → Except String String)
    (events : List Event) (err : String)
    (h : ser events = Except.error err) :
    to_chapter ser events = Except.error err := by
  unfold to_chapter
  rw [h]

/-- The splitting loop is the run partition followed by per-run chapter
conversion. -/
theorem splitChapterAux_eq (ser : List Event → Except String String)
    (input : List Event) :
    ∀ evs : List Event,
      splitChapterAux ser input evs = runsToChapters ser (splitRunsAux input evs) := by
  induction input with
  | nil =>
    intro evs
    cases evs with
    | nil => simp [splitChapterAux, splitRunsAux, runsToChapters]
    | cons a t =>
      simp only [splitChapterAux, splitRunsAux, List.isEmpty_cons, if_neg]
      simp [runsToChapters]
  | cons e rest ih =>
    intro evs
    cases evs with
    | nil =>
      rw [splitChapterAux, splitRunsAux]
      simp [ih]
    | cons a t =>
      by_cases he : is_h1 e
      · rw [splitChapterAux, splitRunsAux]
        simp only [he, List.isEmpty_cons, Bool.not_false, Bool.and_true,
          Bool.true_and, if_true, Bool.not_eq_true]
        rw [runsToChapters, ih [e]]
      · rw [splitChapterAux, splitRunsAux]
        simp [he, ih]

/-- If the serializer fails on a member run, the run-to-chapter
conversion fails. -/
theorem runsToChapters_error (ser : List Event → Except String String)
    (rs : List (List Event)) (r : List Event) (err : String)
    (hmem : r ∈ rs) (hser : ser r = Except.error err) :
    ∃ e, runsToChapters ser rs = Except.error e := by
  induction rs with
  | nil => cases hmem
  | cons hd tl ih =>
    rw [runsToChapters]
    cases hhd : to_chapter ser hd with
    | error e2 => exact ⟨e2, rfl⟩
    | ok c =>
      rcases List.mem_cons.mp hmem with rfl | hmem2
      · obtain ⟨-, -, -, -, -, -, hok⟩ := to_chapter_ok ser r c hhd
        rw [hok] at hser
        cases hser
      · obtain ⟨e2, he2⟩ := ih hmem2
        rw [he2]
        exact ⟨e2, rfl⟩

/-- Every chapter a successful conversion emits comes from a member run. -/
theorem runsToChapters_ok_mem (ser : List Event → Except String String)
    (rs : List (List Event)) :
    ∀ cs, runsToChapters ser rs = Except.ok cs →
      ∀ c ∈ cs, ∃ r ∈ rs, to_chapter ser r = Except.ok c := by
  induction rs with
  | nil =>
    intro cs hcs c hc
    rw [runsToChapters] at hcs
    cases hcs
    cases hc
  | cons hd tl ih =>
    intro cs hcs c hc
    rw [runsToChapters] at hcs
    cases hhd : to_chapter ser hd with
    | error e2 => rw [hhd] at hcs; cases hcs
    | ok c0 =>
      rw [hhd] at hcs
      cases htl : runsToChapters ser tl with
      | error e2 => rw [htl] at hcs; cases hcs
      | ok cs0 =>
        rw [htl] at hcs
        cases hcs
        rcases List.mem_cons.mp hc with rfl | hc2
        · exact ⟨hd, by simp, hhd⟩
        · obtain ⟨r, hr, hrc⟩ := ih cs0 htl c hc2
          exact ⟨r, by simp [hr], hrc⟩

/-- The tree walk is the per-item expansion followed by concatenation. -/
theorem processItems_eq (parse : String → List Event)
    (ser : List Event → Except String String) :
    ∀ items : List BookItem,
      processItems parse ser items = expandAll parse ser items := by
  intro items
  induction items with
  | nil => rfl
  | cons it rest ih =>
    cases it with
    | Chapter c =>
      rw [processItems, expandAll, expandItemSpec]
      cases split_chapter parse ser c with
      | error err => rfl
      | ok cs =>
        rw [ih]
    | Separator =>
      rw [processItems, expandAll, expandItemSpec]
      rw [ih]
      cases expandAll parse ser rest with
      | error err => rfl
      | ok tail => rfl
    | PartTitle t =>
      rw [processItems, expandAll, expandItemSpec]
      rw [ih]
      cases expandAll parse ser rest with
      | error err => rfl
      | ok tail => rfl

/-- If splitting any chapter item fails, the whole tree walk fails. -/
theorem processItems_error (parse : String → List Event)
    (ser : List Event → Except String String) :
    ∀ (items : List BookItem) (c : Chapter) (err : String),
      BookItem.Chapter c ∈ items →
      split_chapter parse ser c = Except.error err →
      ∃ e, processItems parse ser items = Except.error e := by
  intro items
  induction items with
  | nil =>
    intro c err hmem
    cases hmem
  | cons it rest ih =>
    intro c err hmem hsplit
    rcases List.mem_cons.mp hmem with rfl | hmem2
    · rw [processItems, hsplit]
      exact ⟨err, rfl⟩
    · cases it with
      | Chapter c2 =>
        rw [processItems]
        cases hc2 : split_chapter parse ser c2 with
        | error e2 => exact ⟨e2, rfl⟩
        | ok cs =>
          obtain ⟨e2, he2⟩ := ih c err hmem2 hsplit
          rw [he2]
          exact ⟨e2, rfl⟩
      | Separator =>
        rw [processItems]
        obtain ⟨e2, he2⟩ := ih c err hmem2 hsplit
        rw [he2]
        exact ⟨e2, rfl⟩
      | PartTitle t =>
        rw [processItems]
        obtain ⟨e2, he2⟩ := ih c err hmem2 hsplit
        rw [he2]
        exact ⟨e2, rfl⟩

/-- Every chapter item of a successful tree walk satisfies the default
field properties of `to_chapter` output. -/
theorem processItems_ok_defaults (parse : String → List Event)
    (ser : List Event → Except String String) :
    ∀ (items out : List BookItem),
      processItems parse ser items = Except.ok out →
      ∀ c : Chapter, BookItem.Chapter c ∈ out →
        c.number = none ∧ c.sub_items = [] ∧ c.source_path = none ∧
        c.parent_names = [] := by
  intro items
  induction items with
  | nil =>
    intro out hout c hc
    rw [processItems] at hout
    cases hout
    cases hc
  | cons it rest ih =>
    intro out hout c hc
    cases it with
    | Chapter c0 =>
      rw [processItems] at hout
      cases hc0 : split_chapter parse ser c0 with
      | error e2 => rw [hc0] at hout; cases hout
      | ok cs =>
        rw [hc0] at hout
        cases hrest : processItems parse ser rest with
        | error e2 => rw [hrest] at hout; cases hout
        | ok tail =>
          rw [hrest] at hout
          cases hout
          rcases List.mem_append.mp hc with hin | hin
          · obtain ⟨c2, hc2mem, hc2eq⟩ := List.mem_map.mp hin
            cases hc2eq
            have hrc : runsToChapters ser (splitRunsAux (parse c0.content) [])
                = Except.ok cs := by
              rw [← splitChapterAux_eq]
              exact hc0
            obtain ⟨r, -, hrok⟩ :=
              runsToChapters_ok_mem ser (splitRunsAux (parse c0.content) [])
                cs hrc c hc2mem
            obtain ⟨-, -, h1, h2, h3, h4, -⟩ := to_chapter_ok ser r c hrok
            exact ⟨h1, h2, h3, h4⟩
          · exact ih tail hrest c hin
    | Separator =>
      rw [processItems] at hout
      cases hrest : processItems parse ser rest with
      | error e2 => rw [hrest] at hout; cases hout
      | ok tail =>
        rw [hrest] at hout
        cases hout
        rcases List.mem_cons.mp hc with heq | hin
        · cases heq
        · exact ih tail hrest c hin
    | PartTitle t =>
      rw [processItems] at hout
      cases hrest : processItems parse ser rest with
      | error e2 => rw [hrest] at hout; cases hout
      | ok tail =>
        rw [hrest] at hout
        cases hout
        rcases List.mem_cons.mp hc with heq | hin
        · cases heq
        · exact ih tail hrest c hin

/-! ### Remaining helper lemmas -/

/-- The digest recorded for "Chapter 1" in the repository's test
`nop_preprocessor_run`, reproduced by the embedded SHA-256. -/
theorem sha256hex_chapter1 :
    sha256hex "Chapter 1" =
      "3178a647e0f2bcd284eaa96aab1750e61d3211c14aa60f2b45b6bdd27da6a159" := by
  decide

/-- The digest recorded for "Chapter 2" in the repository's test. -/
theorem sha256hex_chapter2 :
    sha256hex "Chapter 2" =
      "11012a8623e958a2b46fc910d209280c789328566b5ab5b3652c71c1ccf7b4fb" := by
  decide

/-- The very first loop iteration never closes a run: the current run is
still empty, so the boundary condition is false whatever the event is. -/
theorem splitRuns_cons (a : Event) (t : List Event) :
    splitRuns (a :: t) = splitRunsAux t [a] := by
  rw [splitRuns, splitRunsAux]
  simp

/-- A heading start of any level other than 1 is not `is_h1`. -/
theorem is_h1_false_of_ne_H1 (lvl : HeadingLevel) (id : Option String)
    (classes : List String) (h : lvl ≠ HeadingLevel.H1) :
    is_h1 (Event.Start (Tag.Heading lvl id classes)) = false := by
  cases lvl
  · exact absurd rfl h
  all_goals rfl

/-- Hex digits come from the lowercase alphabet. -/
theorem nibbleChar_mem (n : Nat) : nibbleChar n ∈ "0123456789abcdef".data := by
  unfold nibbleChar
  by_cases h : n < "0123456789abcdef".data.length
  · rw [List.getD_eq_getElem _ _ h]
    exact List.getElem_mem h
  · rw [List.getD_eq_default _ _ (Nat.le_of_not_lt h)]
    decide

/-- Every character of a word-list hex rendering is a lowercase hex digit. -/
theorem hexOfWords_mem (ws : List Nat) :
    ∀ ch ∈ hexOfWords ws, ch ∈ "0123456789abcdef".data := by
  induction ws with
  | nil => intro ch hch; cases hch
  | cons w rest ih =>
    intro ch hch
    rw [hexOfWords] at hch
    rcases List.mem_append.mp hch with hin | hin
    · unfold wordHex at hin
      simp only [List.mem_cons, List.not_mem_nil, or_false] at hin
      rcases hin with rfl | rfl | rfl | rfl | rfl | rfl | rfl | rfl <;>
        exact nibbleChar_mem _
    · exact ih ch hin

/-- The hex rendering of a digest has 64 characters. -/
theorem sha256hex_length (s : String) : (sha256hex s).length = 64 := by
  show (hexOfWords (sha256words (strBytes s)).toList).length = 64
  rw [Hs.toList]
  simp [hexOfWords, wordHex]

/-! ### Claim theorems -/

/-- C1 counterexample: the claim as stated fails on the empty document.
An empty event sequence has zero top-level headings, yet the splitter
yields zero runs, not "exactly one run containing the entire event
sequence": the loop only flushes a non-empty run. -/
theorem c1_counterexample :
    List.countP is_h1 ([] : List Event) = 0 ∧
    splitRuns ([] : List Event) = [] ∧
    (splitRuns ([] : List Event)).length ≠ 1 := by
  decide

/-- C1 (amended: a document with zero top-level headings yields exactly
one run containing the entire event sequence provided the event sequence
is non-empty; the empty sequence yields zero runs, see the
counterexample).  For a non-empty event sequence: with zero top-level
heading starts the single run is the whole sequence; with the first event
a top-level heading start the run count equals the heading count N; with
leading content before the first top-level heading the run count is N+1
and the leading content (everything before the first heading start) forms
the first run, whose title is the empty string. -/
theorem c1_run_count (es : List Event) (hne : es ≠ []) :
    (es.countP is_h1 = 0 → splitRuns es = [es]) ∧
    (∀ e rest, es = e :: rest → is_h1 e = true →
      (splitRuns es).length = es.countP is_h1) ∧
    (∀ e rest, es = e :: rest → is_h1 e = false → 1 ≤ es.countP is_h1 →
      (splitRuns es).length = es.countP is_h1 + 1 ∧
      (splitRuns es).head? = some (es.takeWhile (fun x => !is_h1 x)) ∧
      extract_name (es.takeWhile (fun x => !is_h1 x)) = "") := by
  refine ⟨?_, ?_, ?_⟩
  · intro hcnt
    obtain ⟨a, t, rfl⟩ := List.exists_cons_of_ne_nil hne
    have ha : is_h1 a = false := by
      by_contra hcon
      simp [List.countP_cons, eq_true_of_ne_false hcon] at hcnt
    have ht : t.countP is_h1 = 0 := by
      simp [List.countP_cons, ha] at hcnt
      exact List.countP_eq_zero.mpr fun x hx => by simp [hcnt x hx]
    rw [splitRuns_cons, splitRunsAux_noH1 t [a] (by simp) ht]
    simp
  · rintro e rest rfl he
    rw [splitRuns_cons, splitRunsAux_length rest [e] (by simp),
      List.countP_cons]
    simp [he]
    omega
  · rintro e rest rfl he _
    have hlen := splitRunsAux_length rest [e] (by simp)
    have hhead := splitRunsAux_head rest [e] (by simp)
    refine ⟨?_, ?_, ?_⟩
    · rw [splitRuns_cons, hlen, List.countP_cons]
      simp [he]
      omega
    · rw [splitRuns_cons, hhead, List.takeWhile_cons]
      simp [he]
    · refine extract_name_noH1 _ fun x hx => ?_
      rw [List.takeWhile_cons] at hx
      simp [he] at hx
      rcases hx with rfl | hx
      · exact he
      · have := List.mem_takeWhile_imp hx
        simpa using this

/-- C1 witness: on the document `Text "a", H1-start, Text "b"` (leading
content, one top-level heading) the splitter yields 1+1 runs and the
leading run's title is empty. -/
theorem c1_run_count_witness :
    (splitRuns [Event.Text "a",
        Event.Start (Tag.Heading HeadingLevel.H1 none []),
        Event.Text "b"]).length =
      List.countP is_h1 [Event.Text "a",
        Event.Start (Tag.Heading HeadingLevel.H1 none []),
        Event.Text "b"] + 1 ∧
    extract_name (List.takeWhile (fun x => !is_h1 x)
      [Event.Text "a",
       Event.Start (Tag.Heading HeadingLevel.H1 none []),
       Event.Text "b"]) = "" := by
  have h := (c1_run_count [Event.Text "a",
      Event.Start (Tag.Heading HeadingLevel.H1 none []),
      Event.Text "b"] (by decide)).2.2
    (Event.Text "a")
    [Event.Start (Tag.Heading HeadingLevel.H1 none []), Event.Text "b"]
    rfl (by decide) (by decide)
  exact ⟨h.1, h.2.2⟩

/-- C2: the chapter title is the text content of the event immediately
following the first top-level heading-start event if and only if that
event is a plain text event; with no top-level heading-start in the run,
or a non-text follower (code span, emphasis start, ...), the title is the
empty string. -/
theorem c2_title_extraction (events : List Event) :
    ((∀ e ∈ events, is_h1 e = false) → extract_name events = "") ∧
    (∀ (pre : List Event) (e nxt : Event) (rest : List Event),
      events = pre ++ e :: nxt :: rest →
      (∀ x ∈ pre, is_h1 x = false) → is_h1 e = true →
      extract_name events =
        match nxt with
        | Event.Text t => t
        | _ => "") := by
  constructor
  · exact extract_name_noH1 events
  · intro pre e nxt rest heq hpre he
    subst heq
    unfold extract_name
    rw [findH1Next_first pre e nxt rest hpre he]
    cases nxt <;> rfl

/-- C2 witness: a heading followed by `Text "Foo"` titles the run "Foo";
followed by an inline code span it titles it ""; a run with no top-level
heading start titles it "". -/
theorem c2_title_extraction_witness :
    extract_name [Event.Start (Tag.Heading HeadingLevel.H1 none []),
      Event.Text "Foo"] = "Foo" ∧
    extract_name [Event.Start (Tag.Heading HeadingLevel.H1 none []),
      Event.Code "Foo"] = "" ∧
    extract_name [Event.Code "x"] = "" := by
  refine ⟨?_, ?_, ?_⟩
  · exact (c2_title_extraction _).2 []
      (Event.Start (Tag.Heading HeadingLevel.H1 none [])) (Event.Text "Foo")
      [] rfl (by decide) (by decide)
  · exact (c2_title_extraction _).2 []
      (Event.Start (Tag.Heading HeadingLevel.H1 none [])) (Event.Code "Foo")
      [] rfl (by decide) (by decide)
  · exact (c2_title_extraction _).1 (by decide)

/-- C3: the chapter identifier (`path`) is a deterministic pure function
of the title alone — the SHA-256 digest of the title's UTF-8 bytes in
lowercase hexadecimal.  Computing it twice yields identical text; the
rendering is 64 lowercase hex digits; every chapter's path is the hash of
its name; and any two chapters with equal names (from any documents,
any serializers) have equal paths. -/
theorem c3_identifier :
    (∀ s : String, sha256hex s = sha256hex s) ∧
    (∀ s : String, (sha256hex s).length = 64 ∧
      ∀ ch ∈ (sha256hex s).data, ch ∈ "0123456789abcdef".data) ∧
    (∀ (ser : List Event → Except String String) (events : List Event)
       (c : Chapter), to_chapter ser events = Except.ok c →
      c.path = some (sha256hex c.name)) ∧
    (∀ (ser1 ser2 : List Event → Except String String)
       (es1 es2 : List Event) (c1 c2 : Chapter),
      to_chapter ser1 es1 = Except.ok c1 →
      to_chapter ser2 es2 = Except.ok c2 →
      c1.name = c2.name → c1.path = c2.path) := by
  refine ⟨fun s => rfl, ?_, ?_, ?_⟩
  · intro s
    exact ⟨sha256hex_length s, hexOfWords_mem _⟩
  · intro ser events c hc
    obtain ⟨hname, hpath, -, -, -, -, -⟩ := to_chapter_ok ser events c hc
    rw [hpath, hname]
  · intro ser1 ser2 es1 es2 c1 c2 h1 h2 hname
    obtain ⟨hn1, hp1, -, -, -, -, -⟩ := to_chapter_ok ser1 es1 c1 h1
    obtain ⟨hn2, hp2, -, -, -, -, -⟩ := to_chapter_ok ser2 es2 c2 h2
    rw [hp1, hp2, ← hn1, ← hn2, hname]

/-- C3 witness: on the run `H1-start, Text "Chapter 1"` the built chapter
carries the hash of its name as path, and that hash is the digest the
repository's own test records for "Chapter 1". -/
theorem c3_identifier_witness :
    (Chapter.mk "Chapter 1" "" none []
        (some (sha256hex "Chapter 1")) none []).path =
      some "3178a647e0f2bcd284eaa96aab1750e61d3211c14aa60f2b45b6bdd27da6a159" := by
  have h := c3_identifier.2.2.1 (fun _ => Except.ok "")
    [Event.Start (Tag.Heading HeadingLevel.H1 none []),
     Event.Text "Chapter 1"]
    (Chapter.mk "Chapter 1" "" none [] (some (sha256hex "Chapter 1")) none [])
    rfl
  rw [h, show (Chapter.mk "Chapter 1" "" none []
      (some (sha256hex "Chapter 1")) none []).name = "Chapter 1" from rfl,
    sha256hex_chapter1]

/-- C4: in every run the splitter produces, a top-level heading-start can
only occur as the first event — the tail is free of `is_h1` events, any
`is_h1` member is the head, and the run contains at most one `is_h1`
event. -/
theorem c4_h1_first (es run : List Event) (hrun : run ∈ splitRuns es) :
    (∀ e ∈ run.drop 1, is_h1 e = false) ∧
    (∀ e ∈ run, is_h1 e = true → run.head? = some e) ∧
    run.countP is_h1 ≤ 1 := by
  have htail := splitRunsAux_tail_noH1 es [] (by simp) run hrun
  refine ⟨htail, ?_, ?_⟩
  · intro e he h1
    cases run with
    | nil => cases he
    | cons a t =>
      rcases List.mem_cons.mp he with rfl | hin
      · rfl
      · have := htail e (by simpa using hin)
        rw [h1] at this
        cases this
  · cases run with
    | nil => simp
    | cons a t =>
      have ht : t.countP is_h1 = 0 :=
        List.countP_eq_zero.mpr fun x hx => by
          simp [htail x (by simpa using hx)]
      rw [List.countP_cons, ht]
      by_cases h : is_h1 a <;> simp [h]

/-- C4 witness: splitting `H1, Text "a", H1, Text "b"` yields the run
`[H1, Text "a"]`, whose tail has no top-level heading start and whose
`is_h1` count is 1. -/
theorem c4_h1_first_witness :
    (∀ e ∈ ([Event.Start (Tag.Heading HeadingLevel.H1 none []),
        Event.Text "a"] : List Event).drop 1, is_h1 e = false) ∧
    List.countP is_h1 [Event.Start (Tag.Heading HeadingLevel.H1 none []),
      Event.Text "a"] ≤ 1 := by
  have h := c4_h1_first
    [Event.Start (Tag.Heading HeadingLevel.H1 none []), Event.Text "a",
     Event.Start (Tag.Heading HeadingLevel.H1 none []), Event.Text "b"]
    [Event.Start (Tag.Heading HeadingLevel.H1 none []), Event.Text "a"]
    (by decide)
  exact ⟨h.1, h.2.2⟩

/-- C5: only a level-1 heading start can trigger a run boundary.  A
sequence with no `is_h1` event (in particular one whose headings all have
levels 2–6) yields at most one run; a heading-start of level ≠ 1 is
appended to the current run, never closing it; a level-1 heading start
meeting an empty current run is appended, not flushed as a boundary; and
a level-1 heading start meeting a non-empty current run closes it. -/
theorem c5_only_h1_boundary :
    (∀ es : List Event, (∀ e ∈ es, is_h1 e = false) →
      (splitRuns es).length ≤ 1) ∧
    (∀ (lvl : HeadingLevel) (id : Option String) (classes : List String)
       (rest evs : List Event), lvl ≠ HeadingLevel.H1 →
      splitRunsAux (Event.Start (Tag.Heading lvl id classes) :: rest) evs =
        splitRunsAux rest (evs ++ [Event.Start (Tag.Heading lvl id classes)])) ∧
    (∀ (e : Event) (rest : List Event), is_h1 e = true →
      splitRunsAux (e :: rest) [] = splitRunsAux rest [e]) ∧
    (∀ (e a : Event) (rest t : List Event), is_h1 e = true →
      splitRunsAux (e :: rest) (a :: t) =
        (a :: t) :: splitRunsAux rest [e]) := by
  refine ⟨?_, ?_, ?_, ?_⟩
  · intro es hes
    cases es with
    | nil => simp [splitRuns, splitRunsAux]
    | cons a t =>
      have ht : t.countP is_h1 = 0 :=
        List.countP_eq_zero.mpr fun x hx => by simp [hes x (by simp [hx])]
      rw [splitRuns_cons, splitRunsAux_noH1 t [a] (by simp) ht]
      simp
  · intro lvl id classes rest evs hlvl
    rw [splitRunsAux]
    simp [is_h1_false_of_ne_H1 lvl id classes hlvl]
  · intro e rest he
    rw [splitRunsAux]
    simp
  · intro e a rest t he
    rw [splitRunsAux]
    simp [he]

/-- C5 witness: an H2 start between two text events does not split (one
run); an H2 start is appended to the current run; an H1 start meeting the
empty initial run is appended rather than flushed; an H1 start meeting a
non-empty run closes it. -/
theorem c5_only_h1_boundary_witness :
    (splitRuns [Event.Text "a",
      Event.Start (Tag.Heading HeadingLevel.H2 none []),
      Event.Text "b"]).length ≤ 1 ∧
    splitRunsAux [Event.Start (Tag.Heading HeadingLevel.H2 none [])]
        [Event.Text "a"] =
      splitRunsAux [] [Event.Text "a",
        Event.Start (Tag.Heading HeadingLevel.H2 none [])] ∧
    splitRunsAux [Event.Start (Tag.Heading HeadingLevel.H1 none []),
        Event.Text "x"] [] =
      splitRunsAux [Event.Text "x"]
        [Event.Start (Tag.Heading HeadingLevel.H1 none [])] ∧
    splitRunsAux [Event.Start (Tag.Heading HeadingLevel.H1 none [])]
        [Event.Text "a"] =
      [Event.Text "a"] ::
        splitRunsAux [] [Event.Start (Tag.Heading HeadingLevel.H1 none [])] := by
  refine ⟨c5_only_h1_boundary.1 _ (by decide), ?_, ?_, ?_⟩
  · have h := c5_only_h1_boundary.2.1 HeadingLevel.H2 none []
      ([] : List Event) [Event.Text "a"] (by decide)
    simpa using h
  · exact c5_only_h1_boundary.2.2.1
      (Event.Start (Tag.Heading HeadingLevel.H1 none [])) [Event.Text "x"]
      (by decide)
  · have h := c5_only_h1_boundary.2.2.2
      (Event.Start (Tag.Heading HeadingLevel.H1 none [])) (Event.Text "a")
      ([] : List Event) ([] : List Event) (by decide)
    simpa using h

/-- C6: a re-serialization failure on any run aborts the whole rewrite.
If the serializer fails on a member run, the splitting loop returns an
error; if splitting any chapter item of the book fails, `Split::run`
returns an error; and the rewrite has no partial-success mode — it is
either a whole rewritten book or an error. -/
theorem c6_error_propagation :
    (∀ (ser : List Event → Except String String) (es run : List Event)
       (err : String), run ∈ splitRuns es → ser run = Except.error err →
      ∃ e, splitChapterAux ser es [] = Except.error e) ∧
    (∀ (parse : String → List Event) (ser : List Event → Except String String)
       (book : Book) (c : Chapter) (err : String),
      BookItem.Chapter c ∈ book.sections →
      split_chapter parse ser c = Except.error err →
      ∃ e, Split.run parse ser book = Except.error e) ∧
    (∀ (parse : String → List Event) (ser : List Event → Except String String)
       (book : Book),
      (∃ nb, Split.run parse ser book = Except.ok nb) ∨
      (∃ e, Split.run parse ser book = Except.error e)) := by
  refine ⟨?_, ?_, ?_⟩
  · intro ser es run err hmem hser
    rw [splitChapterAux_eq]
    exact runsToChapters_error ser (splitRunsAux es []) run err hmem hser
  · intro parse ser book c err hmem hsplit
    obtain ⟨e, he⟩ := processItems_error parse ser book.sections c err hmem hsplit
    exact ⟨e, by unfold Split.run; rw [he]⟩
  · intro parse ser book
    unfold Split.run
    cases processItems parse ser book.sections with
    | error err => exact Or.inr ⟨err, rfl⟩
    | ok secs => exact Or.inl ⟨Book.mk secs, rfl⟩

/-- C6 witness: with a serializer that always fails, splitting a
one-event document errors, and `Split::run` on a one-chapter book
errors. -/
theorem c6_error_propagation_witness :
    (∃ e, splitChapterAux (fun _ => Except.error "boom")
      [Event.Text "a"] [] = Except.error e) ∧
    (∃ e, Split.run (fun _ => [Event.Text "a"])
      (fun _ => Except.error "boom")
      (Book.mk [BookItem.Chapter (Chapter.mk "n" "body" none [] none none [])])
        = Except.error e) := by
  constructor
  · exact c6_error_propagation.1 (fun _ => Except.error "boom")
      [Event.Text "a"] [Event.Text "a"] "boom" (by decide) rfl
  · exact c6_error_propagation.2.1 (fun _ => [Event.Text "a"])
      (fun _ => Except.error "boom")
      (Book.mk [BookItem.Chapter (Chapter.mk "n" "body" none [] none none [])])
      (Chapter.mk "n" "body" none [] none none []) "boom"
      (List.mem_singleton.mpr rfl) rfl

/-- C7: the tree rewrite expands every item in place and in order —
each `Chapter` node is replaced by the chapters split out of it (in
source-run order), while `Separator` and `PartTitle` nodes are copied
through unchanged, keeping their relative position among the expanded
sequence.  `Split::run` equals the per-item expansion `expandAll` /
`expandItemSpec`, which rewrites only `Chapter` nodes. -/
theorem c7_tree_rewrite (parse : String → List Event)
    (ser : List Event → Except String String) (book : Book) :
    Split.run parse ser book =
      match expandAll parse ser book.sections with
      | Except.error err => Except.error err
      | Except.ok secs => Except.ok (Book.mk secs) := by
  unfold Split.run
  rw [processItems_eq]

/-- C8: every chapter record the core emits populates only name, content
and path; number, sub_items, source_path and parent_names stay at their
defaults, both directly out of `to_chapter` and in the full rewritten
book — in particular nested `sub_items` of an input chapter are dropped
(no emitted chapter carries sub-items). -/
theorem c8_default_fields :
    (∀ (ser : List Event → Except String String) (events : List Event)
       (c : Chapter), to_chapter ser events = Except.ok c →
      c.path = some (sha256hex c.name) ∧ c.number = none ∧
      c.sub_items = [] ∧ c.source_path = none ∧ c.parent_names = []) ∧
    (∀ (parse : String → List Event) (ser : List Event → Except String String)
       (book out : Book), Split.run parse ser book = Except.ok out →
      ∀ c : Chapter, BookItem.Chapter c ∈ out.sections →
        c.number = none ∧ c.sub_items = [] ∧ c.source_path = none ∧
        c.parent_names = []) := by
  constructor
  · intro ser events c hc
    obtain ⟨hn, hp, h1, h2, h3, h4, -⟩ := to_chapter_ok ser events c hc
    exact ⟨by rw [hp, hn], h1, h2, h3, h4⟩
  · intro parse ser book out hout c hc
    unfold Split.run at hout
    cases hpi : processItems parse ser book.sections with
    | error err => rw [hpi] at hout; cases hout
    | ok secs =>
      rw [hpi] at hout
      cases hout
      exact processItems_ok_defaults parse ser book.sections secs hpi c hc

/-- C8 witness: rewriting a book whose single chapter has a section
number, sub-items, a source path and parent names yields a chapter with
all those fields at their defaults (the nested sub-item is dropped). -/
theorem c8_default_fields_witness :
    (Chapter.mk "" "out" none [] (some (sha256hex "")) none []).number
        = none ∧
    (Chapter.mk "" "out" none [] (some (sha256hex "")) none []).sub_items
        = [] ∧
    (Chapter.mk "" "out" none [] (some (sha256hex "")) none []).source_path
        = none ∧
    (Chapter.mk "" "out" none [] (some (sha256hex "")) none []).parent_names
        = [] := by
  exact c8_default_fields.2 (fun _ => [Event.Text "t"])
    (fun _ => Except.ok "out")
    (Book.mk [BookItem.Chapter (Chapter.mk "nested" "body" (some [1])
      [BookItem.Separator] (some "p") (some "sp") ["parent"])])
    (Book.mk [BookItem.Chapter (Chapter.mk "" "out" none []
      (some (sha256hex "")) none [])])
    rfl
    (Chapter.mk "" "out" none [] (some (sha256hex "")) none [])
    (List.mem_singleton.mpr rfl)

/-- C9: a document whose content parses to an empty event sequence
produces zero chapter records, and its node disappears from the
rewritten book. -/
theorem c9_empty_sequence (parse : String → List Event)
    (ser : List Event → Except String String) (c : Chapter)
    (h : parse c.content = []) :
    split_chapter parse ser c = Except.ok [] ∧
    Split.run parse ser (Book.mk [BookItem.Chapter c]) =
      Except.ok (Book.mk []) := by
  have h1 : split_chapter parse ser c = Except.ok [] := by
    unfold split_chapter
    rw [h]
    rfl
  refine ⟨h1, ?_⟩
  unfold Split.run
  have h2 : processItems parse ser [BookItem.Chapter c] = Except.ok [] := by
    rw [processItems, h1]
    rfl
  rw [h2]

/-- C9 witness: a chapter whose content parses to no events is removed;
the rewritten book is empty. -/
theorem c9_empty_sequence_witness :
    Split.run (fun _ => []) (fun _ => Except.ok "")
      (Book.mk [BookItem.Chapter (Chapter.mk "n" "" none [] none none [])]) =
      Except.ok (Book.mk []) := by
  exact (c9_empty_sequence (fun _ => []) (fun _ => Except.ok "")
    (Chapter.mk "n" "" none [] none none []) rfl).2

/-- C10: if the first top-level heading start is the run's last event,
adjacent-pair scanning finds no pair starting at it, so the title is the
empty string. -/
theorem c10_trailing_h1 (pre : List Event) (e : Event)
    (hpre : ∀ x ∈ pre, is_h1 x = false) (_he : is_h1 e = true) :
    extract_name (pre ++ [e]) = "" := by
  unfold extract_name
  rw [findH1Next_last pre e hpre]

/-- C10 witness: the run `Text "a", H1-start` (heading start last, and a
single-event run `H1-start`) titles to the empty string. -/
theorem c10_trailing_h1_witness :
    extract_name [Event.Text "a",
      Event.Start (Tag.Heading HeadingLevel.H1 none [])] = "" ∧
    extract_name [Event.Start (Tag.Heading HeadingLevel.H1 none [])] = "" := by
  constructor
  · exact c10_trailing_h1 [Event.Text "a"]
      (Event.Start (Tag.Heading HeadingLevel.H1 none []))
      (by decide) (by decide)
  · exact c10_trailing_h1 []
      (Event.Start (Tag.Heading HeadingLevel.H1 none []))
      (by decide) (by decide)
